import Mathlib

/-!
Verification of `averagewordlength/python_sample_solution/mapper.py`.

The script reads all lines from standard input; for each line it splits on
the regular expression `\W` (every single character outside `[A-Za-z0-9_]`
is a delimiter), and for each resulting piece `w` with `len(w) > 0` it
prints `w[0].lower() + '\t' + str(len(w))`.

We embed the script at the level of character lists: a line is a
`List Char`, the whole input stream is a `List Char`, and the program is a
pure function from the stream to the list of printed output lines.
-/

namespace AWL

/-- Word characters: the class `[A-Za-z0-9_]`, the complement of the
regex class `\W` compiled as `NONALPHA` in `mapper.py` (Python 2 `re`
without the Unicode flag: ASCII letters, digits and underscore). -/
def isWordChar (c : Char) : Bool :=
  decide ((65 ≤ c.toNat ∧ c.toNat ≤ 90) ∨ (97 ≤ c.toNat ∧ c.toNat ≤ 122) ∨
    (48 ≤ c.toNat ∧ c.toNat ≤ 57) ∨ c = '_')

/-- ASCII lowercasing of one character, the behaviour of Python 2
`str.lower` on a single byte under the default locale: `A`..`Z` move 32
code points up, every other character is unchanged.  Models the
`w[0].lower()` of line 11 of `mapper.py`. -/
def pyLower (c : Char) : Char :=
  if 65 ≤ c.toNat ∧ c.toNat ≤ 90 then Char.ofNat (c.toNat + 32) else c

/-- Lowercase word characters: the image of `isWordChar` under `pyLower`
(lowercase letters, digits, underscore). -/
def isLowerWordChar (c : Char) : Bool :=
  decide ((97 ≤ c.toNat ∧ c.toNat ≤ 122) ∨ (48 ≤ c.toNat ∧ c.toNat ≤ 57) ∨ c = '_')

/-- Helper for `splitSingle`: returns the first piece (possibly empty)
and the list of remaining pieces. -/
def splitSingleAux : List Char → List Char × List (List Char)
  | [] => ([], [])
  | c :: cs =>
    let r := splitSingleAux cs
    if isWordChar c then (c :: r.1, r.2) else ([], r.1 :: r.2)

/-- Model of `NONALPHA.split(line)`, i.e. `re.split("\W", line)`: the line
is cut at every single non-word character, and the pieces between
consecutive cuts are kept, including empty ones (as Python's `re.split`
does for a one-character pattern).  The result is always non-empty. -/
def splitSingle (s : List Char) : List (List Char) :=
  (splitSingleAux s).1 :: (splitSingleAux s).2

/-- The pieces the guard `if len(w) > 0` of line 10 keeps: the non-empty
tokens of the line, in left-to-right order. -/
def keptTokens (s : List Char) : List (List Char) :=
  (splitSingle s).filter (fun w => decide (0 < w.length))

/-- The record built from one piece `w`: `none` when the guard
`len(w) > 0` fails, otherwise the pair of the lowercased first character
`w[0].lower()` and the length `len(w)`. -/
def emitRecord (w : List Char) : Option (Char × Nat) :=
  if 0 < w.length then some (pyLower (w.headD ' '), w.length) else none

/-- The text of one printed line: `w[0].lower() + '\t' + str(len(w))`,
i.e. key, one TAB, then the decimal representation of the value. -/
def formatRecord (r : Char × Nat) : String :=
  String.mk [r.1] ++ "\t" ++ Nat.repr r.2

/-- The records emitted for one input line: the inner `for w in
NONALPHA.split(input)` loop of `mapper.py` with its guard. -/
def mapperLineRecords (s : List Char) : List (Char × Nat) :=
  (splitSingle s).filterMap emitRecord

/-- The output lines printed for one input line. -/
def mapperLine (s : List Char) : List String :=
  (mapperLineRecords s).map formatRecord

/-- Model of `sys.stdin.readlines()`: the stream is cut after every
newline character; each line keeps its trailing newline, and a final
piece without a newline is kept as well.  An empty stream gives no
lines. -/
def pyReadlines : List Char → List (List Char)
  | [] => []
  | c :: cs =>
    if c == '\n' then [c] :: pyReadlines cs
    else
      match pyReadlines cs with
      | [] => [[c]]
      | l :: ls => (c :: l) :: ls

/-- All records emitted by one run of the program on a whole input
stream, line by line in arrival order. -/
def mapperRunRecords (input : List Char) : List (Char × Nat) :=
  ((pyReadlines input).map mapperLineRecords).flatten

/-- The whole program: the complete list of output lines that a run of
`mapper.py` prints for the given input stream. -/
def mapperRun (input : List Char) : List String :=
  ((pyReadlines input).map mapperLine).flatten

/-- Helper for `specSplitRuns`, accumulating the run currently being
extended on the left and the finished runs to its right. -/
def specSplitRunsAux : List Char → List Char × List (List Char)
  | [] => ([], [])
  | c :: cs =>
    let r := specSplitRunsAux cs
    if isWordChar c then (c :: r.1, r.2)
    else ([], if 0 < r.1.length then r.1 :: r.2 else r.2)

/-- Modelled from the spec's words (section 4.1, algorithm step 1): "a
split point occurs at every maximal run of one-or-more characters that
are not letters, digits, or underscore; the resulting substrings are the
tokens (the delimiter runs themselves are discarded, not included as
empty or separator tokens)".  Equivalently: the non-empty maximal runs
of word characters of the line, in order. -/
def specSplitRuns (s : List Char) : List (List Char) :=
  let r := specSplitRunsAux s
  if 0 < r.1.length then r.1 :: r.2 else r.2

/-! ### Helper lemmas -/

lemma toNat_ofNat_of_lt (n : Nat) (h1 : n < 55296) : (Char.ofNat n).toNat = n := by
  have hv : n.isValidChar := Or.inl h1
  simp only [Char.ofNat, dif_pos hv, Char.ofNatAux, Char.toNat, UInt32.toNat,
    BitVec.toNat_ofNatLt]

lemma pyLower_idem (c : Char) : pyLower (pyLower c) = pyLower c := by
  by_cases hu : 65 ≤ c.toNat ∧ c.toNat ≤ 90
  · have h32 : (Char.ofNat (c.toNat + 32)).toNat = c.toNat + 32 :=
      toNat_ofNat_of_lt _ (by omega)
    have hno : ¬(65 ≤ (Char.ofNat (c.toNat + 32)).toNat ∧
        (Char.ofNat (c.toNat + 32)).toNat ≤ 90) := by rw [h32]; omega
    simp only [pyLower, if_pos hu, if_neg hno]
  · simp only [pyLower, if_neg hu]

lemma isLowerWordChar_pyLower (c : Char) (h : isWordChar c = true) :
    isLowerWordChar (pyLower c) = true := by
  simp only [isWordChar, decide_eq_true_eq] at h
  by_cases hu : 65 ≤ c.toNat ∧ c.toNat ≤ 90
  · have h32 : (Char.ofNat (c.toNat + 32)).toNat = c.toNat + 32 :=
      toNat_ofNat_of_lt _ (by omega)
    simp only [pyLower, if_pos hu, isLowerWordChar, decide_eq_true_eq]
    left
    rw [h32]
    omega
  · simp only [pyLower, if_neg hu, isLowerWordChar, decide_eq_true_eq]
    rcases h with h1 | h2 | h3 | h4
    · exact absurd h1 hu
    · exact Or.inl h2
    · exact Or.inr (Or.inl h3)
    · exact Or.inr (Or.inr h4)

lemma splitSingleAux_wordChars (s : List Char) :
    (∀ c ∈ (splitSingleAux s).1, isWordChar c = true) ∧
    (∀ w ∈ (splitSingleAux s).2, ∀ c ∈ w, isWordChar c = true) := by
  induction s with
  | nil => simp [splitSingleAux]
  | cons c cs ih =>
    cases hc : isWordChar c with
    | true =>
      refine ⟨?_, ?_⟩
      · intro d hd
        simp only [splitSingleAux, hc, if_true] at hd
        rcases List.mem_cons.mp hd with h1 | h1
        · exact h1 ▸ hc
        · exact ih.1 d h1
      · intro w hw
        simp only [splitSingleAux, hc, if_true] at hw
        exact ih.2 w hw
    | false =>
      refine ⟨?_, ?_⟩
      · intro d hd
        simp only [splitSingleAux, hc, if_false] at hd
        exact absurd hd (List.not_mem_nil d)
      · intro w hw
        simp only [splitSingleAux, hc, if_false] at hw
        rcases List.mem_cons.mp hw with h1 | h1
        · exact h1 ▸ ih.1
        · exact ih.2 w h1

lemma splitSingle_wordChars (s w : List Char) (hw : w ∈ splitSingle s) :
    ∀ c ∈ w, isWordChar c = true := by
  rcases List.mem_cons.mp hw with h1 | h1
  · exact h1 ▸ (splitSingleAux_wordChars s).1
  · exact (splitSingleAux_wordChars s).2 w h1

lemma splitSingleAux_of_wordChars (w : List Char)
    (h : ∀ c ∈ w, isWordChar c = true) : splitSingleAux w = (w, []) := by
  induction w with
  | nil => rfl
  | cons c cs ih =>
    have hc : isWordChar c = true := h c (List.mem_cons_self c cs)
    have ihcs : splitSingleAux cs = (cs, []) :=
      ih (fun d hd => h d (List.mem_cons_of_mem c hd))
    simp [splitSingleAux, hc, ihcs]

lemma filterMap_emitRecord (l : List (List Char)) :
    l.filterMap emitRecord =
      (l.filter (fun w => decide (0 < w.length))).map
        (fun w => (pyLower (w.headD ' '), w.length)) := by
  induction l with
  | nil => rfl
  | cons w l ih =>
    by_cases h : 0 < w.length
    · simp [List.filterMap_cons, List.filter_cons, emitRecord, h, ih]
    · simp [List.filterMap_cons, List.filter_cons, emitRecord, h, ih]

lemma specSplitRunsAux_eq (s : List Char) :
    specSplitRunsAux s =
      ((splitSingleAux s).1,
        (splitSingleAux s).2.filter (fun w => decide (0 < w.length))) := by
  induction s with
  | nil => rfl
  | cons c cs ih =>
    cases hc : isWordChar c with
    | true => simp [specSplitRunsAux, splitSingleAux, hc, ih]
    | false =>
      by_cases h1 : 0 < (splitSingleAux cs).1.length
      · simp [specSplitRunsAux, splitSingleAux, hc, ih, List.filter_cons, h1]
      · simp [specSplitRunsAux, splitSingleAux, hc, ih, List.filter_cons, h1]

lemma keptTokens_eq_specSplitRuns (s : List Char) :
    keptTokens s = specSplitRuns s := by
  by_cases h1 : 0 < (splitSingleAux s).1.length
  · simp [keptTokens, splitSingle, specSplitRuns, specSplitRunsAux_eq,
      List.filter_cons, h1]
  · simp [keptTokens, splitSingle, specSplitRuns, specSplitRunsAux_eq,
      List.filter_cons, h1]

lemma splitSingleAux_of_delims (s : List Char)
    (h : ∀ c ∈ s, isWordChar c = false) :
    (splitSingleAux s).1 = [] ∧ ∀ w ∈ (splitSingleAux s).2, w = [] := by
  induction s with
  | nil => simp [splitSingleAux]
  | cons c cs ih =>
    have hc : isWordChar c = false := h c (List.mem_cons_self c cs)
    have ihcs := ih (fun d hd => h d (List.mem_cons_of_mem c hd))
    refine ⟨by simp [splitSingleAux, hc], ?_⟩
    intro w hw
    simp only [splitSingleAux, hc, if_false] at hw
    rcases List.mem_cons.mp hw with h1 | h1
    · exact h1.trans ihcs.1
    · exact ihcs.2 w h1

lemma emitRecord_eq_some (w : List Char) (r : Char × Nat)
    (h : emitRecord w = some r) :
    0 < w.length ∧ r = (pyLower (w.headD ' '), w.length) := by
  by_cases hl : 0 < w.length
  · refine ⟨hl, ?_⟩
    simp only [emitRecord, if_pos hl, Option.some_inj] at h
    exact h.symm
  · simp [emitRecord, hl] at h

lemma mapperLineRecords_eq_runs (s : List Char) :
    mapperLineRecords s =
      (specSplitRuns s).map (fun w => (pyLower (w.headD ' '), w.length)) := by
  rw [← keptTokens_eq_specSplitRuns]
  exact filterMap_emitRecord (splitSingle s)

/-! ### Claim theorems -/

/-- C1: for every input line, the mapper emits exactly one record per
non-empty token obtained from the delimiter split, in order; the record's
key is the lowercase form of the token's first character and its value is
the token's character length. -/
theorem c1_one_record_per_token (s : List Char) :
    mapperLineRecords s =
      (keptTokens s).map (fun w => (pyLower (w.headD ' '), w.length)) :=
  filterMap_emitRecord (splitSingle s)

/-- C2: for every input line, the number of emitted records equals the
number of non-empty maximal runs of word characters of the line; the
records follow the left-to-right order of those runs, and the run of the
whole program processes lines in arrival order. -/
theorem c2_record_count_and_order :
    (∀ s : List Char, (mapperLineRecords s).length = (specSplitRuns s).length)
    ∧ (∀ s : List Char, mapperLineRecords s =
        (specSplitRuns s).map (fun w => (pyLower (w.headD ' '), w.length)))
    ∧ (∀ input : List Char, mapperRunRecords input =
        ((pyReadlines input).map mapperLineRecords).flatten) := by
  refine ⟨?_, mapperLineRecords_eq_runs, fun _ => rfl⟩
  intro s
  rw [mapperLineRecords_eq_runs, List.length_map]

/-- C3: splitting a line at every single non-word character and then
discarding the zero-length pieces (the code's behaviour) yields exactly
the same token sequence as splitting at every maximal run of non-word
characters with the delimiter runs discarded (the spec's rule). -/
theorem c3_single_split_eq_maximal_run_split (s : List Char) :
    (splitSingle s).filter (fun w => decide (0 < w.length)) = specSplitRuns s :=
  keptTokens_eq_specSplitRuns s

/-- C4: every output line of a run is the key, one TAB, then the value,
where the key is a single character already in lowercase form (fixed by
lowercasing) and the value is the decimal representation of a natural
number; no other kind of line is ever produced. -/
theorem c4_output_line_format (input : List Char) (out : String)
    (h : out ∈ mapperRun input) :
    ∃ k n, out = String.mk [k] ++ "\t" ++ Nat.repr n ∧ pyLower k = k := by
  simp only [mapperRun, List.mem_flatten, List.mem_map] at h
  obtain ⟨ls, ⟨line, hline, rfl⟩, hout⟩ := h
  simp only [mapperLine, List.mem_map] at hout
  obtain ⟨r, hr, rfl⟩ := hout
  simp only [mapperLineRecords, List.mem_filterMap] at hr
  obtain ⟨w, hw, hemit⟩ := hr
  obtain ⟨hlen, rfl⟩ := emitRecord_eq_some w r hemit
  exact ⟨pyLower (w.headD ' '), w.length, rfl, pyLower_idem _⟩

/-- Witness for C4 at the concrete input stream `"Hi!"`. -/
theorem c4_output_line_format_witness :
    ∃ k n, "h\t2" = String.mk [k] ++ "\t" ++ Nat.repr n ∧ pyLower k = k :=
  c4_output_line_format ("Hi!".data) "h\t2" (by decide)

/-- C5: a line made only of delimiter characters (in particular an empty
line) produces no output, and a zero-length piece produces no record at
all: the program is total on such inputs, nothing is emitted. -/
theorem c5_delimiter_only_line_emits_nothing (s : List Char)
    (h : ∀ c ∈ s, isWordChar c = false) :
    mapperLine s = [] ∧ emitRecord [] = none := by
  refine ⟨?_, rfl⟩
  have hd := splitSingleAux_of_delims s h
  have hall : ∀ w ∈ splitSingle s, emitRecord w = none := by
    intro w hw
    have hwnil : w = [] := by
      rcases List.mem_cons.mp hw with h1 | h1
      · exact h1.trans hd.1
      · exact hd.2 w h1
    rw [hwnil]
    rfl
  have hrec : mapperLineRecords s = [] := by
    simp only [mapperLineRecords]
    exact List.filterMap_eq_nil_iff.mpr hall
  simp [mapperLine, hrec]

/-- Witness for C5 at a delimiter-only line and at the empty line. -/
theorem c5_delimiter_only_witness :
    (mapperLine (" .,!".data) = [] ∧ emitRecord [] = none)
    ∧ (mapperLine ([] : List Char) = [] ∧ emitRecord [] = none) :=
  ⟨c5_delimiter_only_line_emits_nothing (" .,!".data) (by decide),
   c5_delimiter_only_line_emits_nothing [] (by decide)⟩

/-- C6: splitting is idempotent on tokens: re-applying the delimiter
split to a non-empty token produced by the split yields exactly the
one-element sequence holding that token unchanged. -/
theorem c6_split_idempotent_on_tokens (s w : List Char)
    (hw : w ∈ splitSingle s) (_hlen : 0 < w.length) :
    splitSingle w = [w] := by
  have hall := splitSingle_wordChars s w hw
  have haux := splitSingleAux_of_wordChars w hall
  simp [splitSingle, haux]

/-- Witness for C6: the token `"Hello"` of the line `"Hello, World!"`. -/
theorem c6_split_idempotent_witness : splitSingle ("Hello".data) = ["Hello".data] :=
  c6_split_idempotent_on_tokens ("Hello, World!".data) ("Hello".data)
    (by decide) (by decide)

/-- C7: on the line `"Hello, World!"` the program emits exactly the two
records `(h, 5)` then `(w, 5)`, and on the line `"a1_b 22"` exactly
`(a, 4)` then `(2, 2)`, with the corresponding printed lines. -/
theorem c7_concrete_scenarios :
    mapperLineRecords ("Hello, World!".data) = [('h', 5), ('w', 5)]
    ∧ mapperLineRecords ("a1_b 22".data) = [('a', 4), ('2', 2)]
    ∧ mapperLine ("Hello, World!".data) = ["h\t5", "w\t5"]
    ∧ mapperLine ("a1_b 22".data) = ["a\t4", "2\t2"] := by
  decide

/-- C8: the emitted value is the length of the original token, computed
before any lowercasing, and only the first character is lowercased for
the key; lowercasing the whole token would not have changed its length. -/
theorem c8_value_from_original_token (w : List Char) (h : 0 < w.length) :
    emitRecord w = some (pyLower (w.headD ' '), w.length)
    ∧ (w.map pyLower).length = w.length :=
  ⟨by simp [emitRecord, h], by simp⟩

/-- Witness for C8 at the token `"Ab"`. -/
theorem c8_value_witness :
    emitRecord ("Ab".data) = some (pyLower (("Ab".data).headD ' '), ("Ab".data).length)
    ∧ (("Ab".data).map pyLower).length = ("Ab".data).length :=
  c8_value_from_original_token ("Ab".data) (by decide)

/-- C9: every record emitted over a whole run has a strictly positive
value and a key that is a single lowercase word character (lowercase
letter, digit or underscore). -/
theorem c9_record_wellformed (input : List Char) (r : Char × Nat)
    (h : r ∈ mapperRunRecords input) :
    isLowerWordChar r.1 = true ∧ 1 ≤ r.2 := by
  simp only [mapperRunRecords, List.mem_flatten, List.mem_map] at h
  obtain ⟨ls, ⟨line, hline, rfl⟩, hr⟩ := h
  simp only [mapperLineRecords, List.mem_filterMap] at hr
  obtain ⟨w, hw, hemit⟩ := hr
  obtain ⟨hlen, rfl⟩ := emitRecord_eq_some w r hemit
  refine ⟨?_, hlen⟩
  apply isLowerWordChar_pyLower
  apply splitSingle_wordChars line w hw
  cases w with
  | nil => simp at hlen
  | cons a as => simp [List.headD]

/-- Witness for C9 at the record for the token `"Hi"` of the stream
`"Hi x_1!"`. -/
theorem c9_record_wellformed_witness :
    isLowerWordChar (('h', 2) : Char × Nat).1 = true ∧ 1 ≤ (('h', 2) : Char × Nat).2 :=
  c9_record_wellformed ("Hi x_1!".data) ('h', 2) (by decide)

/-- C10: the program is deterministic: two runs on input streams with the
same contents produce character-for-character identical output. -/
theorem c10_deterministic (s t : List Char) (h : s = t) :
    mapperRun s = mapperRun t := by
  rw [h]

/-- Witness for C10 at the concrete stream `"Go Go\nStop"`. -/
theorem c10_deterministic_witness :
    mapperRun ("Go Go\nStop".data) = mapperRun ("Go Go\nStop".data) :=
  c10_deterministic ("Go Go\nStop".data) ("Go Go\nStop".data) rfl

end AWL
